import Mathlib

/-!
Verification of the Wafer core (src/grid.rs) against its design document.

The program evolves a real wavefunction on a uniform 3-D grid by imaginary-time
propagation.  Arrays are padded with a three-cell halo on every face; we model a
padded array as a total function on natural-number indices together with the
interior extents (nx, ny, nz) carried by each operation, so that the padded
shape is (nx+6, ny+6, nz+6) and interior cell (i,j,k) lives at storage index
(i+3, j+3, k+3).  Real (f64) arithmetic is modelled by exact real arithmetic.
-/

namespace Wafer

/-- A padded 3-D array of reals, modelled as a total function on indices. -/
def Arr : Type := ℕ → ℕ → ℕ → ℝ

/-- Triple sum of a cell function over extents (nx, ny, nz). -/
def sum3 (nx ny nz : ℕ) (f : ℕ → ℕ → ℕ → ℝ) : ℝ :=
  ∑ i in Finset.range nx, ∑ j in Finset.range ny, ∑ k in Finset.range nz, f i j k

/-- `get_work_area` of src/grid.rs: the interior view, offset by the halo width 3
on each axis.  The interior extents are carried by the consumers. -/
def get_work_area (w : Arr) : Arr :=
  fun i j k => w (i + 3) (j + 3) (k + 3)

/-- `get_norm_squared` of src/grid.rs applied to an interior view of extents
(nx, ny, nz): the sum of squares of all elements. -/
def get_norm_squared (nx ny nz : ℕ) (w : Arr) : ℝ :=
  sum3 nx ny nz (fun i j k => w i j k * w i j k)

/-- The bracketed 19-tap expression shared verbatim by `wfnc_energy` and `evolve`
in src/grid.rs, at interior cell (i,j,k) (storage cell (i+3, j+3, k+3)): the
slice index `l[[o+d, o, o]]` is storage cell (i+3+d, j+3, k+3), and likewise on
the other axes; the final term is −1470 times the centre value. -/
def stencil (phi : Arr) (i j k : ℕ) : ℝ :=
  2 * phi (i + 6) (j + 3) (k + 3) - 27 * phi (i + 5) (j + 3) (k + 3) +
      270 * phi (i + 4) (j + 3) (k + 3) +
      270 * phi (i + 2) (j + 3) (k + 3) -
      27 * phi (i + 1) (j + 3) (k + 3) + 2 * phi i (j + 3) (k + 3) +
      2 * phi (i + 3) (j + 6) (k + 3) - 27 * phi (i + 3) (j + 5) (k + 3) +
      270 * phi (i + 3) (j + 4) (k + 3) +
      270 * phi (i + 3) (j + 2) (k + 3) -
      27 * phi (i + 3) (j + 1) (k + 3) + 2 * phi (i + 3) j (k + 3) +
      2 * phi (i + 3) (j + 3) (k + 6) - 27 * phi (i + 3) (j + 3) (k + 5) +
      270 * phi (i + 3) (j + 3) (k + 4) +
      270 * phi (i + 3) (j + 3) (k + 2) -
      27 * phi (i + 3) (j + 3) (k + 1) + 2 * phi (i + 3) (j + 3) k -
      1470 * phi (i + 3) (j + 3) (k + 3)

/-- The stencil as the spec words it (section 4.3): per axis, the taps
2·φ(±3) − 27·φ(±2) + 270·φ(±1), summed over the three axes, and a single
central term −1470·φ(0) counted once.  Spec-side definition, for comparison
with `stencil`. -/
def L_spec (phi : Arr) (i j k : ℕ) : ℝ :=
  (2 * (phi (i + 6) (j + 3) (k + 3) + phi i (j + 3) (k + 3)) -
      27 * (phi (i + 5) (j + 3) (k + 3) + phi (i + 1) (j + 3) (k + 3)) +
      270 * (phi (i + 4) (j + 3) (k + 3) + phi (i + 2) (j + 3) (k + 3))) +
    (2 * (phi (i + 3) (j + 6) (k + 3) + phi (i + 3) j (k + 3)) -
      27 * (phi (i + 3) (j + 5) (k + 3) + phi (i + 3) (j + 1) (k + 3)) +
      270 * (phi (i + 3) (j + 4) (k + 3) + phi (i + 3) (j + 2) (k + 3))) +
    (2 * (phi (i + 3) (j + 3) (k + 6) + phi (i + 3) (j + 3) k) -
      27 * (phi (i + 3) (j + 3) (k + 5) + phi (i + 3) (j + 3) (k + 1)) +
      270 * (phi (i + 3) (j + 3) (k + 4) + phi (i + 3) (j + 3) (k + 2))) -
    1470 * phi (i + 3) (j + 3) (k + 3)

theorem stencil_eq_L_spec (phi : Arr) (i j k : ℕ) :
    stencil phi i j k = L_spec phi i j k := by
  unfold stencil L_spec
  ring

/-- `wfnc_energy` of src/grid.rs: for each interior cell, the cell contribution
`v*w*w - w*(stencil)/denominator` with `denominator = 360*dn^2*mass`, summed
over the interior (the code writes the contributions into a work array and
takes `scalar_sum`). -/
noncomputable def wfnc_energy (nx ny nz : ℕ) (dn mass : ℝ) (v phi : Arr) : ℝ :=
  sum3 nx ny nz (fun i j k =>
    get_work_area v i j k * get_work_area phi i j k * get_work_area phi i j k -
      get_work_area phi i j k * stencil phi i j k / (360 * dn ^ 2 * mass))

/-- The energy observable as the spec words it (sections 4.3 and 4.4): the sum
over interior cells of V·φ² − φ·L/(360·dn²·m) with L the spec stencil.
Spec-side definition, for comparison with `wfnc_energy`. -/
noncomputable def energy_spec (nx ny nz : ℕ) (dn mass : ℝ) (v phi : Arr) : ℝ :=
  sum3 nx ny nz (fun i j k =>
    get_work_area v i j k * get_work_area phi i j k ^ 2 -
      get_work_area phi i j k * L_spec phi i j k / (360 * dn ^ 2 * mass))

/-- C1: for every padded wavefunction and potential, the energy observable of
`wfnc_energy` equals the sum over all interior cells of
V(i,j,k)·φ(i,j,k)² − φ(i,j,k)·L(i,j,k)/(360·dn²·mass), where L is the
7-point-per-axis central-difference stencil with per-axis taps
2·φ(±3) − 27·φ(±2) + 270·φ(±1) and a single central term −1470·φ(0) counted
once. -/
theorem C1_energy_matches_spec (nx ny nz : ℕ) (dn mass : ℝ) (v phi : Arr) :
    wfnc_energy nx ny nz dn mass v phi = energy_spec nx ny nz dn mass v phi := by
  unfold wfnc_energy energy_spec sum3
  refine Finset.sum_congr rfl (fun i _ => ?_)
  refine Finset.sum_congr rfl (fun j _ => ?_)
  refine Finset.sum_congr rfl (fun k _ => ?_)
  dsimp only
  rw [stencil_eq_L_spec]
  ring

/-- C9: applying the full 3-D stencil to a constant field yields exactly 0 at
every interior cell, and the coefficients satisfy
3·(2 − 27 + 270 + 270 − 27 + 2) − 1470 = 0. -/
theorem C9_stencil_constant_zero :
    (∀ (c : ℝ) (i j k : ℕ), stencil (fun _ _ _ => c) i j k = 0) ∧
      (3 * (2 - 27 + 270 + 270 - 27 + 2) - 1470 : ℤ) = 0 := by
  constructor
  · intro c i j k
    unfold stencil
    ring
  · decide

/-- `normalise_wavefunction` of src/grid.rs: divides every entry of the padded
array (halo included) by sqrt(norm2).  The code performs no check on norm2. -/
noncomputable def normalise_wavefunction (w : Arr) (norm2 : ℝ) : Arr :=
  fun x y z => w x y z / Real.sqrt norm2

/-- The error kind the spec attaches to normalization (section 7). -/
inductive NormError where
  | degenerateNorm

/-- Normalization as the spec words it (section 4.5): precondition norm2 > 0,
otherwise signal DegenerateNorm.  Spec-side definition, for comparison with
`normalise_wavefunction`.  (A non-finite norm2 has no counterpart in the
exact-real model; the zero case is representable.) -/
noncomputable def normalise_spec (w : Arr) (norm2 : ℝ) : Except NormError Arr :=
  if 0 < norm2 then Except.ok (fun x y z => w x y z / Real.sqrt norm2)
  else Except.error NormError.degenerateNorm

/-- The full-array elementwise-product sum `(a * b).scalar_sum()` over padded
extents (px, py, pz), as used for the Gram-Schmidt overlap. -/
noncomputable def scalar_sum_mul (px py pz : ℕ) (a b : Arr) : ℝ :=
  sum3 px py pz (fun x y z => a x y z * b x y z)

/-- The all-zero padded array; also the out-of-range default used when
modelling the indexing `w_store[idx]` (the code panics out of range; every use
in the program is in range). -/
def zeroArr : Arr := fun _ _ _ => 0

/-- The constant-one padded array (a concrete test input). -/
def oneArr : Arr := fun _ _ _ => 1

/-- One update of `orthogonalise_wavefunction`: with overlap
`o = (lower * w).scalar_sum()`, replace w by w − lower·o pointwise. -/
noncomputable def gs_update (px py pz : ℕ) (w lower : Arr) : Arr :=
  fun x y z => w x y z - lower x y z * scalar_sum_mul px py pz lower w

/-- `orthogonalise_wavefunction` of src/grid.rs: for idx in 0..wnum in ascending
order, apply the Gram-Schmidt update against w_store[idx], each update reading
the already-updated w. -/
noncomputable def orthogonalise_wavefunction (px py pz : ℕ) (wnum : ℕ)
    (w : Arr) (w_store : List Arr) : Arr :=
  (List.range wnum).foldl
    (fun acc idx => gs_update px py pz acc (w_store.getD idx zeroArr)) w

/-- The scratch interior-sized array computed by one `evolve` loop pass:
`w * a + b * dt * (stencil) / denominator` at each interior cell, reading only
the old phi. -/
noncomputable def evolve_scratch (dn dt mass : ℝ) (a b phi : Arr) : Arr :=
  fun i j k =>
    get_work_area phi i j k * get_work_area a i j k +
      get_work_area b i j k * dt * stencil phi i j k / (360 * dn ^ 2 * mass)

/-- Copying a scratch interior-sized array back into phi through
`get_mut_work_area`: storage cell (x,y,z) with 3 ≤ x < nx+3, 3 ≤ y < ny+3,
3 ≤ z < nz+3 receives work(x−3, y−3, z−3); every other cell keeps phi. -/
def copy_to_work_area (nx ny nz : ℕ) (phi work : Arr) : Arr :=
  fun x y z =>
    if 3 ≤ x ∧ x < nx + 3 ∧ 3 ≤ y ∧ y < ny + 3 ∧ 3 ≤ z ∧ z < nz + 3 then
      work (x - 3) (y - 3) (z - 3)
    else phi x y z

/-- One pass of the `evolve` loop body of src/grid.rs: build the scratch array
from the old phi, copy it into phi's interior, and when wnum > 0 renormalise by
the freshly computed interior norm and Gram-Schmidt against the store. -/
noncomputable def evolve_step (nx ny nz : ℕ) (dn dt mass : ℝ) (a b : Arr)
    (wnum : ℕ) (w_store : List Arr) (phi : Arr) : Arr :=
  if 0 < wnum then
    orthogonalise_wavefunction (nx + 6) (ny + 6) (nz + 6) wnum
      (normalise_wavefunction
        (copy_to_work_area nx ny nz phi (evolve_scratch dn dt mass a b phi))
        (get_norm_squared nx ny nz
          (get_work_area
            (copy_to_work_area nx ny nz phi (evolve_scratch dn dt mass a b phi)))))
      w_store
  else copy_to_work_area nx ny nz phi (evolve_scratch dn dt mass a b phi)

/-- `evolve` of src/grid.rs: the loop body runs screen_update times (once when
screen_update = 0, since the break is only checked after a full pass). -/
noncomputable def evolve (nx ny nz : ℕ) (dn dt mass : ℝ) (a b : Arr)
    (wnum : ℕ) (w_store : List Arr) (screen_update : ℕ) (phi : Arr) : Arr :=
  (evolve_step nx ny nz dn dt mass a b wnum w_store)^[max screen_update 1] phi

/-- C7 (counterexample): at norm2 = 0 the spec's normalize signals
DegenerateNorm, but `normalise_wavefunction` has no error path and still
produces an array, so the code does not agree with the spec there. -/
theorem C7_counterexample :
    normalise_spec (fun _ _ _ => (1 : ℝ)) 0 ≠
        Except.ok (normalise_wavefunction (fun _ _ _ => (1 : ℝ)) 0) ∧
      normalise_spec (fun _ _ _ => (1 : ℝ)) 0 =
        Except.error NormError.degenerateNorm := by
  constructor
  · simp [normalise_spec]
  · simp [normalise_spec]

/-- C7 (amended): `normalise_wavefunction` divides every entry of φ, halo
included, by √norm2 unconditionally; it never signals DegenerateNorm.  On the
spec's precondition norm2 > 0 it agrees with the spec's normalize. -/
theorem C7_normalise_unconditional (w : Arr) (norm2 : ℝ) :
    (∀ x y z, normalise_wavefunction w norm2 x y z = w x y z / Real.sqrt norm2) ∧
      (0 < norm2 →
        normalise_spec w norm2 = Except.ok (normalise_wavefunction w norm2)) := by
  constructor
  · intro x y z; rfl
  · intro h
    simp only [normalise_spec, if_pos h]
    rfl

/-- C7 witness: the amended statement at a concrete array and norm2 = 4. -/
theorem C7_normalise_unconditional_witness :
    (∀ x y z,
        normalise_wavefunction (fun _ _ _ => (3 : ℝ)) 4 x y z = 3 / Real.sqrt 4) ∧
      (0 < (4 : ℝ)) ∧
      normalise_spec (fun _ _ _ => (3 : ℝ)) 4 =
        Except.ok (normalise_wavefunction (fun _ _ _ => (3 : ℝ)) 4) :=
  ⟨(C7_normalise_unconditional (fun _ _ _ => (3 : ℝ)) 4).1, by norm_num,
    (C7_normalise_unconditional (fun _ _ _ => (3 : ℝ)) 4).2 (by norm_num)⟩

theorem sum3_sub (nx ny nz : ℕ) (f g : ℕ → ℕ → ℕ → ℝ) :
    sum3 nx ny nz (fun i j k => f i j k - g i j k) =
      sum3 nx ny nz f - sum3 nx ny nz g := by
  unfold sum3
  simp [Finset.sum_sub_distrib]

theorem sum3_mul_right (nx ny nz : ℕ) (f : ℕ → ℕ → ℕ → ℝ) (c : ℝ) :
    sum3 nx ny nz (fun i j k => f i j k * c) = sum3 nx ny nz f * c := by
  unfold sum3
  simp [Finset.sum_mul]

/-- The overlap of a fixed array with a Gram-Schmidt update, expanded by
bilinearity of the full-array inner product. -/
theorem scalar_sum_mul_gs (px py pz : ℕ) (a w lower : Arr) :
    scalar_sum_mul px py pz a (gs_update px py pz w lower) =
      scalar_sum_mul px py pz a w -
        scalar_sum_mul px py pz a lower * scalar_sum_mul px py pz lower w := by
  simp only [scalar_sum_mul, gs_update]
  rw [← sum3_mul_right px py pz (fun x y z => a x y z * lower x y z)
      (sum3 px py pz fun x y z => lower x y z * w x y z),
    ← sum3_sub]
  refine Finset.sum_congr rfl (fun i _ => ?_)
  refine Finset.sum_congr rfl (fun j _ => ?_)
  refine Finset.sum_congr rfl (fun k _ => ?_)
  dsimp only
  ring

theorem orthogonalise_succ (px py pz t : ℕ) (w : Arr) (w_store : List Arr) :
    orthogonalise_wavefunction px py pz (t + 1) w w_store =
      gs_update px py pz (orthogonalise_wavefunction px py pz t w w_store)
        (w_store.getD t zeroArr) := by
  unfold orthogonalise_wavefunction
  rw [List.range_succ, List.foldl_append]
  rfl

theorem gs_inner_zero_aux (px py pz K : ℕ) (phi : Arr) (W : List Arr)
    (horth : ∀ i j, i < K → j < K →
      scalar_sum_mul px py pz (W.getD i zeroArr) (W.getD j zeroArr) =
        if i = j then 1 else 0) :
    ∀ t, t ≤ K → ∀ j, j < t →
      scalar_sum_mul px py pz (W.getD j zeroArr)
        (orthogonalise_wavefunction px py pz t phi W) = 0 := by
  intro t
  induction t with
  | zero => intro _ j hj; exact absurd hj (Nat.not_lt_zero j)
  | succ t ih =>
    intro htK j hj
    rw [orthogonalise_succ, scalar_sum_mul_gs]
    rcases Nat.lt_succ_iff_lt_or_eq.mp hj with hjt | hjeq
    · rw [ih (Nat.le_of_succ_le htK) j hjt,
        horth j t (lt_of_lt_of_le hj htK) (lt_of_lt_of_le (Nat.lt_succ_self t) htK),
        if_neg (Nat.ne_of_lt hjt)]
      ring
    · subst hjeq
      rw [horth j j (lt_of_lt_of_le hj htK) (lt_of_lt_of_le hj htK), if_pos rfl]
      ring

/-- C8: `orthogonalise_wavefunction` visits prior states j = 0, …, k−1 in
ascending order, each step computing the full-array overlap against the
already-updated φ and subtracting o·W[j]; consequently, in exact real
arithmetic, if the stored states are mutually orthonormal under the full-array
inner product then every overlap ⟨W[j], φ⟩ with j < k vanishes after the call. -/
theorem C8_orthogonalise (px py pz K : ℕ) (phi : Arr) (W : List Arr)
    (horth : ∀ i j, i < K → j < K →
      scalar_sum_mul px py pz (W.getD i zeroArr) (W.getD j zeroArr) =
        if i = j then 1 else 0) :
    (∀ t w0, orthogonalise_wavefunction px py pz (t + 1) w0 W =
        gs_update px py pz (orthogonalise_wavefunction px py pz t w0 W)
          (W.getD t zeroArr)) ∧
      (∀ j, j < K →
        scalar_sum_mul px py pz (W.getD j zeroArr)
          (orthogonalise_wavefunction px py pz K phi W) = 0) := by
  constructor
  · intro t w0
    exact orthogonalise_succ px py pz t w0 W
  · intro j hj
    exact gs_inner_zero_aux px py pz K phi W horth K le_rfl j hj

/-- C8 witness: on a 1×1×1 padded grid with the single stored state constant 1
(a unit vector there) and φ constant 5, the post-call overlap is 0. -/
theorem C8_orthogonalise_witness :
    (∀ i j, i < 1 → j < 1 →
        scalar_sum_mul 1 1 1 ([oneArr].getD i zeroArr) ([oneArr].getD j zeroArr) =
          if i = j then 1 else 0) ∧
      scalar_sum_mul 1 1 1 ([oneArr].getD 0 zeroArr)
        (orthogonalise_wavefunction 1 1 1 1 (fun _ _ _ => (5 : ℝ)) [oneArr]) = 0 := by
  have horth : ∀ i j, i < 1 → j < 1 →
      scalar_sum_mul 1 1 1 ([oneArr].getD i zeroArr) ([oneArr].getD j zeroArr) =
        if i = j then 1 else 0 := by
    intro i j hi hj
    have hi0 : i = 0 := by omega
    have hj0 : j = 0 := by omega
    subst hi0; subst hj0
    simp [scalar_sum_mul, sum3, oneArr]
  exact ⟨horth,
    (C8_orthogonalise 1 1 1 1 (fun _ _ _ => (5 : ℝ)) [oneArr] horth).2 0 Nat.one_pos⟩

/-- C2: each evolution step computes, for interior cells only,
φ'(i,j,k) = A(i,j,k)·φ(i,j,k) + B(i,j,k)·(dt/(360·dn²·mass))·L(i,j,k) with L
the section-4.3 stencil read from the old φ (the scratch array reads no updated
value); the copy-back leaves every non-interior cell of φ unchanged; and when
wnum > 0 the step then renormalises φ by its freshly computed interior norm and
Gram-Schmidt-projects it against the converged store. -/
theorem C2_evolve_step (nx ny nz : ℕ) (dn dt mass : ℝ) (a b : Arr)
    (wnum : ℕ) (w_store : List Arr) (phi : Arr) :
    (∀ i j k, i < nx → j < ny → k < nz →
        copy_to_work_area nx ny nz phi (evolve_scratch dn dt mass a b phi)
            (i + 3) (j + 3) (k + 3) =
          a (i + 3) (j + 3) (k + 3) * phi (i + 3) (j + 3) (k + 3) +
            b (i + 3) (j + 3) (k + 3) * (dt / (360 * dn ^ 2 * mass)) *
              L_spec phi i j k) ∧
      (∀ x y z, ¬(3 ≤ x ∧ x < nx + 3 ∧ 3 ≤ y ∧ y < ny + 3 ∧ 3 ≤ z ∧ z < nz + 3) →
        copy_to_work_area nx ny nz phi (evolve_scratch dn dt mass a b phi) x y z =
          phi x y z) ∧
      (0 < wnum →
        evolve_step nx ny nz dn dt mass a b wnum w_store phi =
          orthogonalise_wavefunction (nx + 6) (ny + 6) (nz + 6) wnum
            (normalise_wavefunction
              (copy_to_work_area nx ny nz phi (evolve_scratch dn dt mass a b phi))
              (get_norm_squared nx ny nz
                (get_work_area
                  (copy_to_work_area nx ny nz phi
                    (evolve_scratch dn dt mass a b phi)))))
            w_store) := by
  refine ⟨?_, ?_, ?_⟩
  · intro i j k hi hj hk
    unfold copy_to_work_area
    rw [if_pos (by omega)]
    simp only [Nat.add_sub_cancel]
    unfold evolve_scratch get_work_area
    rw [stencil_eq_L_spec]
    ring
  · intro x y z hout
    unfold copy_to_work_area
    rw [if_neg hout]
  · intro h
    unfold evolve_step
    rw [if_pos h]

/-- C2 witness: the three parts of the step contract at a concrete grid
(interior 1×1×1, unit parameters, constant-one arrays, wnum = 1). -/
theorem C2_evolve_step_witness :
    (copy_to_work_area 1 1 1 oneArr (evolve_scratch 1 1 1 oneArr oneArr oneArr)
          3 3 3 =
        oneArr 3 3 3 * oneArr 3 3 3 +
          oneArr 3 3 3 * ((1 : ℝ) / (360 * 1 ^ 2 * 1)) * L_spec oneArr 0 0 0) ∧
      (copy_to_work_area 1 1 1 oneArr (evolve_scratch 1 1 1 oneArr oneArr oneArr)
          0 0 0 = oneArr 0 0 0) ∧
      evolve_step 1 1 1 1 1 1 oneArr oneArr 1 [oneArr] oneArr =
        orthogonalise_wavefunction 7 7 7 1
          (normalise_wavefunction
            (copy_to_work_area 1 1 1 oneArr (evolve_scratch 1 1 1 oneArr oneArr oneArr))
            (get_norm_squared 1 1 1
              (get_work_area
                (copy_to_work_area 1 1 1 oneArr
                  (evolve_scratch 1 1 1 oneArr oneArr oneArr)))))
          [oneArr] :=
  ⟨(C2_evolve_step 1 1 1 1 1 1 oneArr oneArr 1 [oneArr] oneArr).1 0 0 0
      Nat.one_pos Nat.one_pos Nat.one_pos,
    (C2_evolve_step 1 1 1 1 1 1 oneArr oneArr 1 [oneArr] oneArr).2.1 0 0 0
      (by omega),
    (C2_evolve_step 1 1 1 1 1 1 oneArr oneArr 1 [oneArr] oneArr).2.2 Nat.one_pos⟩

theorem evolve_step_wnum_zero_frame (nx ny nz : ℕ) (dn dt mass : ℝ) (a b : Arr)
    (w_store : List Arr) (phi : Arr) (x y z : ℕ)
    (hout : ¬(3 ≤ x ∧ x < nx + 3 ∧ 3 ≤ y ∧ y < ny + 3 ∧ 3 ≤ z ∧ z < nz + 3)) :
    evolve_step nx ny nz dn dt mass a b 0 w_store phi x y z = phi x y z := by
  unfold evolve_step
  rw [if_neg (lt_irrefl 0)]
  unfold copy_to_work_area
  rw [if_neg hout]

/-- C10: with wnum = 0 a call to `evolve` modifies only the interior of φ:
every cell outside the interior window [3, n+3) on each axis is unchanged,
because each pass copies the scratch result back only through the interior view
and no normalisation or orthogonalisation runs. -/
theorem C10_evolve_halo_frame (nx ny nz : ℕ) (dn dt mass : ℝ) (a b : Arr)
    (w_store : List Arr) (screen_update : ℕ) (phi : Arr) (x y z : ℕ)
    (hout : ¬(3 ≤ x ∧ x < nx + 3 ∧ 3 ≤ y ∧ y < ny + 3 ∧ 3 ≤ z ∧ z < nz + 3)) :
    evolve nx ny nz dn dt mass a b 0 w_store screen_update phi x y z =
      phi x y z := by
  unfold evolve
  generalize max screen_update 1 = n
  induction n generalizing phi with
  | zero => rfl
  | succ n ih =>
    rw [Function.iterate_succ_apply]
    rw [ih (evolve_step nx ny nz dn dt mass a b 0 w_store phi)]
    exact evolve_step_wnum_zero_frame nx ny nz dn dt mass a b w_store phi x y z hout

/-- C10 witness: a concrete halo cell is untouched by a wnum = 0 call. -/
theorem C10_evolve_halo_frame_witness :
    ¬(3 ≤ 0 ∧ 0 < 1 + 3 ∧ 3 ≤ 0 ∧ 0 < 1 + 3 ∧ 3 ≤ 0 ∧ 0 < 1 + 3) ∧
      evolve 1 1 1 1 1 1 oneArr oneArr 0 [] 2 oneArr 0 0 0 = oneArr 0 0 0 :=
  ⟨by omega, C10_evolve_halo_frame 1 1 1 1 1 1 oneArr oneArr [] 2 oneArr 0 0 0 (by omega)⟩

/-- A model of an f64 value: a finite real, or one of the non-finite values.
Only finiteness matters to the minimum scan of `load_potential_arrays`; the
scan's `f64::min` is applied to finite operands only, where it is the usual
minimum. -/
inductive F64 where
  | finite (x : ℝ)
  | nan
  | posInf
  | negInf

/-- `f64::is_finite`. -/
def F64.is_finite : F64 → Bool
  | .finite _ => true
  | _ => false

/-- The largest finite f64, `std::f64::MAX` = (2^53 − 1)·2^971, the starting
value of the minimum scan. -/
noncomputable def f64max : ℝ := (2 ^ 53 - 1) * 2 ^ 971

theorem f64max_pos : 0 < f64max := by
  unfold f64max
  norm_num

/-- The minimum scan of `load_potential_arrays` in src/grid.rs: starting from
f64::MAX, fold over all entries of V, taking the min with each finite entry and
skipping non-finite entries. -/
noncomputable def scan_minima (v : List F64) : ℝ :=
  v.foldl (fun m e => match e with | F64.finite x => min m x | _ => m) f64max

/-- The epsilon field of `Potentials`: `2. * minima.abs()`. -/
noncomputable def epsilon_of (v : List F64) : ℝ := 2 * |scan_minima v|

/-- The error kind the spec attaches to potential construction (section 7). -/
inductive PotentialError where
  | potentialNonFinite

/-- The finite entries of V, in scan order. -/
def finite_vals (v : List F64) : List ℝ :=
  v.filterMap (fun e => match e with | F64.finite x => some x | _ => none)

/-- Epsilon as the spec words it (sections 4.2 and 7): fail with
PotentialNonFinite when V has no finite entry, otherwise 2·|min of the finite
entries|.  Spec-side definition, for comparison with `epsilon_of`. -/
noncomputable def epsilon_spec (v : List F64) : Except PotentialError ℝ :=
  match finite_vals v with
  | [] => Except.error PotentialError.potentialNonFinite
  | x :: xs => Except.ok (2 * |xs.foldl min x|)

theorem scan_foldl_eq (v : List F64) : ∀ init : ℝ,
    v.foldl (fun m e => match e with | F64.finite x => min m x | _ => m) init =
      (finite_vals v).foldl min init := by
  induction v with
  | nil => intro init; rfl
  | cons e v ih =>
    intro init
    cases e with
    | finite x => exact ih (min init x)
    | nan => exact ih init
    | posInf => exact ih init
    | negInf => exact ih init

theorem foldl_min_absorb (l : List ℝ) (a x : ℝ) (hx : x ≤ a) :
    List.foldl min a (x :: l) = List.foldl min x l := by
  show List.foldl min (min a x) l = List.foldl min x l
  rw [min_eq_right hx]

/-- C6 (amended): `load_potential_arrays` raises no error when V has no finite
entry — the scan simply leaves minima = f64::MAX and epsilon = 2·f64::MAX.
Non-finite entries are indeed skipped (the scan depends only on the finite
entries), and when a finite entry exists (every finite f64 is at most MAX)
epsilon equals 2·|min of the finite entries| and is nonnegative, agreeing with
the spec's successful case. -/
theorem C6_epsilon_scan (v : List F64) :
    (scan_minima v = (finite_vals v).foldl min f64max) ∧
      (0 ≤ epsilon_of v) ∧
      (finite_vals v = [] → epsilon_of v = 2 * f64max) ∧
      (∀ x xs, finite_vals v = x :: xs → x ≤ f64max →
        epsilon_of v = 2 * |xs.foldl min x| ∧
          epsilon_spec v = Except.ok (epsilon_of v)) := by
  have hscan : scan_minima v = (finite_vals v).foldl min f64max :=
    scan_foldl_eq v f64max
  refine ⟨hscan, ?_, ?_, ?_⟩
  · exact mul_nonneg (by norm_num) (abs_nonneg _)
  · intro h
    unfold epsilon_of
    rw [hscan, h]
    simp [abs_of_pos f64max_pos]
  · intro x xs hcons hx
    have hval : epsilon_of v = 2 * |xs.foldl min x| := by
      unfold epsilon_of
      rw [hscan, hcons, foldl_min_absorb xs f64max x hx]
    refine ⟨hval, ?_⟩
    unfold epsilon_spec
    rw [hcons, hval]

/-- C6 (counterexample): for a potential with no finite entry the spec demands
the PotentialNonFinite failure, but the code raises no error: the scan leaves
minima = f64::MAX and the construction returns epsilon = 2·f64::MAX. -/
theorem C6_counterexample :
    epsilon_spec [F64.nan] = Except.error PotentialError.potentialNonFinite ∧
      epsilon_of [F64.nan] = 2 * f64max := by
  constructor
  · rfl
  · unfold epsilon_of scan_minima
    simp [abs_of_pos f64max_pos]

/-- C6 witness: the amended statement at V = [finite (−3), NaN]. -/
theorem C6_epsilon_scan_witness :
    (finite_vals [F64.finite (-3), F64.nan] = [(-3 : ℝ)]) ∧
      ((-3 : ℝ) ≤ f64max) ∧
      (epsilon_of [F64.finite (-3), F64.nan] = 2 * |List.foldl min (-3 : ℝ) []| ∧
        epsilon_spec [F64.finite (-3), F64.nan] =
          Except.ok (epsilon_of [F64.finite (-3), F64.nan])) := by
  have hle : (-3 : ℝ) ≤ f64max := le_of_lt (lt_trans (by norm_num) f64max_pos)
  exact ⟨rfl, hle,
    (C6_epsilon_scan [F64.finite (-3), F64.nan]).2.2.2 (-3) [] rfl hle⟩

/-- The configuration fields the core consumes. -/
structure Cfg where
  nx : ℕ
  ny : ℕ
  nz : ℕ
  dn : ℝ
  dt : ℝ
  mass : ℝ
  tolerance : ℝ
  max_steps : ℕ
  snap_update : ℕ
  screen_update : ℕ
  wavenum : ℕ
  wavemax : ℕ

/-- The collaborators of the core that live outside src/.  Modelled from the
spec (section 6): `sym` is the supplier-provided symmetrize operator
(config::symmetrise_wavefunction) which enforces whatever symmetries the
configuration selects — the identity when none are configured; `init` is the
array returned by config::set_initial_conditions; `vsub` and `r2f` are the
per-interior-index suppliers potential::potential_sub and
potential::calculate_r2. -/
structure Suppliers where
  sym : Arr → Arr
  init : Arr
  vsub : ℕ → ℕ → ℕ → ℝ
  r2f : ℕ → ℕ → ℕ → ℝ

/-- The `Observables` record of src/grid.rs. -/
structure Observables where
  energy : ℝ
  norm2 : ℝ
  v_infinity : ℝ
  r2 : ℝ

/-- `get_v_infinity_expectation_value` of src/grid.rs: φ²·V_sub summed over
the interior view, the supplier abstract (it lives outside src/). -/
noncomputable def get_v_infinity (nx ny nz : ℕ) (vsub : ℕ → ℕ → ℕ → ℝ)
    (w : Arr) : ℝ :=
  sum3 nx ny nz (fun i j k => w i j k * w i j k * vsub i j k)

/-- `get_r_squared_expectation_value` of src/grid.rs, with calculate_r2
abstract. -/
noncomputable def get_r_squared (nx ny nz : ℕ) (r2f : ℕ → ℕ → ℕ → ℝ)
    (w : Arr) : ℝ :=
  sum3 nx ny nz (fun i j k => w i j k * w i j k * r2f i j k)

/-- `compute_observables` of src/grid.rs. -/
noncomputable def compute_observables (cfg : Cfg) (sup : Suppliers)
    (v phi : Arr) : Observables :=
  { energy := wfnc_energy cfg.nx cfg.ny cfg.nz cfg.dn cfg.mass v phi
    norm2 := get_norm_squared cfg.nx cfg.ny cfg.nz (get_work_area phi)
    v_infinity := get_v_infinity cfg.nx cfg.ny cfg.nz sup.vsub (get_work_area phi)
    r2 := get_r_squared cfg.nx cfg.ny cfg.nz sup.r2f (get_work_area phi) }

/-- The mutable state of the convergence driver in `solve`. -/
structure DriverState where
  phi : Arr
  step : ℕ
  last_energy : ℝ
  display_energy : ℝ

/-- The tail of one driver iteration: evolve when step < max_steps, then
advance step by screen_update (the `done` test happens in `solve_loop`). -/
noncomputable def driver_tail (cfg : Cfg) (a b : Arr) (wnum : ℕ)
    (w_store : List Arr) (st : DriverState) : DriverState :=
  { st with
    phi := if st.step < cfg.max_steps then
        evolve cfg.nx cfg.ny cfg.nz cfg.dn cfg.dt cfg.mass a b wnum w_store
          cfg.screen_update st.phi
      else st.phi
    step := st.step + cfg.screen_update }

/-- One iteration of the `solve` while-loop of src/grid.rs: compute the
observables; when wnum > 0 normalise with the observable norm2 and
orthogonalise; at a snap step (step divisible by snap_update) symmetrise and
normalise again with that same observable norm2, then either break converged
when the normalised-energy delta beats the tolerance or record the energies;
finally evolve (when step < max_steps) and advance the step counter.  Returns
the new state and whether the loop broke with convergence. -/
noncomputable def driver_iteration (cfg : Cfg) (sup : Suppliers) (a b v : Arr)
    (wnum : ℕ) (w_store : List Arr) (st : DriverState) : DriverState × Bool :=
  let obs := compute_observables cfg sup v st.phi
  let norm_energy := obs.energy / obs.norm2
  let phi1 := if 0 < wnum then
      orthogonalise_wavefunction (cfg.nx + 6) (cfg.ny + 6) (cfg.nz + 6) wnum
        (normalise_wavefunction st.phi obs.norm2) w_store
    else st.phi
  if st.step % cfg.snap_update = 0 then
    let phi2 := normalise_wavefunction (sup.sym phi1) obs.norm2
    if |norm_energy - st.last_energy| < cfg.tolerance then
      ({ st with phi := phi2 }, true)
    else
      (driver_tail cfg a b wnum w_store
        { phi := phi2, step := st.step, last_energy := norm_energy,
          display_energy := st.last_energy }, false)
  else
    (driver_tail cfg a b wnum w_store { st with phi := phi1 }, false)

/-- The `solve` while-loop, with fuel.  The caller passes fuel max_steps + 2,
which exceeds the iteration count whenever screen_update ≥ 1, so the fuel-out
case (returning none, like exhaustion) is unreachable there. -/
noncomputable def solve_loop (cfg : Cfg) (sup : Suppliers) (a b v : Arr)
    (wnum : ℕ) (w_store : List Arr) : ℕ → DriverState → Option Arr
  | 0, _ => none
  | fuel + 1, st =>
    match driver_iteration cfg sup a b v wnum w_store st with
    | (st2, true) => some st2.phi
    | (st2, false) =>
      if cfg.max_steps < st2.step then none
      else solve_loop cfg sup a b v wnum w_store fuel st2

/-- The seeding of `solve`: `w_store[wnum − 1].clone()` when wnum > 0 — the
out-of-range index, which panics in the code, is modelled by none — and the
configured initial conditions otherwise. -/
def seed (wnum : ℕ) (w_store : List Arr) (init : Arr) : Option Arr :=
  if 0 < wnum then w_store.get? (wnum - 1) else some init

/-- Seeding as the spec words it (section 4.8): W[n−1] if n > 0 and it exists,
otherwise the initial conditions from the configuration.  Spec-side
definition, for comparison with `seed`. -/
def seed_spec (wnum : ℕ) (w_store : List Arr) (init : Arr) : Option Arr :=
  if 0 < wnum then
    match w_store.get? (wnum - 1) with
    | some w => some w
    | none => some init
  else some init

/-- The outcome of one state search. -/
inductive SolveResult where
  | converged (phi : Arr)
  | exhausted
  | seedPanic

/-- `solve` of src/grid.rs: seed, then drive the convergence loop from
step = 0 and last_energy = display_energy = f64::MAX; convergence yields the
final phi, the step limit yields `exhausted`, the out-of-range seed index
yields `seedPanic` (a panic in the code). -/
noncomputable def solve (cfg : Cfg) (sup : Suppliers) (a b v : Arr)
    (wnum : ℕ) (w_store : List Arr) : SolveResult :=
  match seed wnum w_store sup.init with
  | none => SolveResult.seedPanic
  | some phi0 =>
    match solve_loop cfg sup a b v wnum w_store (cfg.max_steps + 2)
        { phi := phi0, step := 0, last_energy := f64max,
          display_energy := f64max } with
    | some phi => SolveResult.converged phi
    | none => SolveResult.exhausted

/-- The orchestration loop of `run`: for `count` states starting at n, search;
append the converged phi to the store, and abort the whole run (the code
panics) on any other outcome. -/
def run_iter (drive : ℕ → List Arr → SolveResult) :
    ℕ → ℕ → List Arr → Option (List Arr)
  | 0, _, store => some store
  | count + 1, n, store =>
    match drive n store with
    | SolveResult.converged w => run_iter drive count (n + 1) (store ++ [w])
    | _ => none

/-- `run` of src/grid.rs: states wavenum..wavemax in ascending order, starting
from an empty store. -/
noncomputable def run (cfg : Cfg) (sup : Suppliers) (a b v : Arr) :
    Option (List Arr) :=
  run_iter (fun n store => solve cfg sup a b v n store)
    (cfg.wavemax + 1 - cfg.wavenum) cfg.wavenum []

/-- C4 (counterexample): at state index 1 with an empty store the code's seed
is the out-of-range indexing `w_store[0]` — a panic, modelled none — while the
claim requires a fallback to the configured initial conditions, as the
spec-side seeding produces. -/
theorem C4_counterexample :
    seed 1 [] oneArr = none ∧
      seed_spec 1 [] oneArr = some oneArr ∧
      seed 1 [] oneArr ≠ seed_spec 1 [] oneArr := by
  refine ⟨rfl, rfl, ?_⟩
  intro h
  simp [seed, seed_spec] at h

/-- C4 (amended): for n > 0 the search is seeded from W[n−1] with no fallback
(an absent W[n−1] is an out-of-range panic, modelled none), and from the
configured initial conditions only when n = 0; when a state search exits
non-converged (Exhausted), the orchestration aborts at once, attempting no
later state. -/
theorem C4_seeding_and_abort :
    (∀ n store init, 0 < n → seed n store init = store.get? (n - 1)) ∧
      (∀ store init, seed 0 store init = some init) ∧
      (∀ drive count n store, drive n store = SolveResult.exhausted →
        run_iter drive (count + 1) n store = none) := by
  refine ⟨?_, ?_, ?_⟩
  · intro n store init h
    unfold seed
    rw [if_pos h]
  · intro store init
    rfl
  · intro drive count n store h
    unfold run_iter
    rw [h]

/-- C4 witness: the amended statement at concrete inputs — seeding of state 2
from a one-element store, seeding of state 0, and an aborting exhausted run. -/
theorem C4_seeding_and_abort_witness :
    (0 < 2 ∧ seed 2 [oneArr] zeroArr = [oneArr].get? 1) ∧
      (seed 0 [oneArr] zeroArr = some zeroArr) ∧
      ((fun (_ : ℕ) (_ : List Arr) => SolveResult.exhausted) 5 [] =
          SolveResult.exhausted ∧
        run_iter (fun _ _ => SolveResult.exhausted) 1 5 [] = none) :=
  ⟨⟨Nat.zero_lt_two, C4_seeding_and_abort.1 2 [oneArr] zeroArr Nat.zero_lt_two⟩,
    C4_seeding_and_abort.2.1 [oneArr] zeroArr,
    ⟨rfl, C4_seeding_and_abort.2.2 (fun _ _ => SolveResult.exhausted) 0 5 [] rfl⟩⟩

/-- Cell (x,y,z) lies outside the interior window of a padded array with
interior extents (nx, ny, nz): the three-cell halo. -/
abbrev Halo (nx ny nz x y z : ℕ) : Prop :=
  ¬(3 ≤ x ∧ x < nx + 3 ∧ 3 ≤ y ∧ y < ny + 3 ∧ 3 ≤ z ∧ z < nz + 3)

theorem normalise_halo (w : Arr) (n2 : ℝ) (x y z : ℕ) (h : w x y z = 0) :
    normalise_wavefunction w n2 x y z = 0 := by
  unfold normalise_wavefunction
  rw [h]
  exact zero_div _

theorem getD_store_halo (nx ny nz : ℕ) (w_store : List Arr)
    (hstore : ∀ lo ∈ w_store, ∀ x y z, Halo nx ny nz x y z → lo x y z = 0)
    (idx x y z : ℕ) (hh : Halo nx ny nz x y z) :
    w_store.getD idx zeroArr x y z = 0 := by
  by_cases hidx : idx < w_store.length
  · rw [List.getD_eq_getElem w_store zeroArr hidx]
    exact hstore _ (List.getElem_mem hidx) x y z hh
  · rw [List.getD_eq_default w_store zeroArr (le_of_not_lt hidx)]
    rfl

theorem orthogonalise_halo (px py pz nx ny nz wnum : ℕ) (w : Arr)
    (w_store : List Arr)
    (hw : ∀ x y z, Halo nx ny nz x y z → w x y z = 0)
    (hstore : ∀ lo ∈ w_store, ∀ x y z, Halo nx ny nz x y z → lo x y z = 0)
    (x y z : ℕ) (hh : Halo nx ny nz x y z) :
    orthogonalise_wavefunction px py pz wnum w w_store x y z = 0 := by
  induction wnum with
  | zero => exact hw x y z hh
  | succ t ih =>
    rw [orthogonalise_succ]
    unfold gs_update
    rw [ih, getD_store_halo nx ny nz w_store hstore t x y z hh]
    ring

theorem evolve_step_halo (nx ny nz : ℕ) (dn dt mass : ℝ) (a b : Arr)
    (wnum : ℕ) (w_store : List Arr) (phi : Arr)
    (hphi : ∀ x y z, Halo nx ny nz x y z → phi x y z = 0)
    (hstore : ∀ lo ∈ w_store, ∀ x y z, Halo nx ny nz x y z → lo x y z = 0)
    (x y z : ℕ) (hh : Halo nx ny nz x y z) :
    evolve_step nx ny nz dn dt mass a b wnum w_store phi x y z = 0 := by
  have hcopy : ∀ p q r, Halo nx ny nz p q r →
      copy_to_work_area nx ny nz phi (evolve_scratch dn dt mass a b phi) p q r = 0 := by
    intro p q r hpqr
    unfold copy_to_work_area
    rw [if_neg hpqr]
    exact hphi p q r hpqr
  unfold evolve_step
  by_cases hwn : 0 < wnum
  · rw [if_pos hwn]
    refine orthogonalise_halo _ _ _ nx ny nz wnum _ w_store ?_ hstore x y z hh
    intro p q r hpqr
    exact normalise_halo _ _ p q r (hcopy p q r hpqr)
  · rw [if_neg hwn]
    exact hcopy x y z hh

theorem evolve_halo (nx ny nz : ℕ) (dn dt mass : ℝ) (a b : Arr)
    (wnum : ℕ) (w_store : List Arr) (screen_update : ℕ) (phi : Arr)
    (hphi : ∀ x y z, Halo nx ny nz x y z → phi x y z = 0)
    (hstore : ∀ lo ∈ w_store, ∀ x y z, Halo nx ny nz x y z → lo x y z = 0)
    (x y z : ℕ) (hh : Halo nx ny nz x y z) :
    evolve nx ny nz dn dt mass a b wnum w_store screen_update phi x y z = 0 := by
  unfold evolve
  generalize max screen_update 1 = n
  induction n generalizing phi with
  | zero => exact hphi x y z hh
  | succ n ih =>
    rw [Function.iterate_succ_apply]
    exact ih (evolve_step nx ny nz dn dt mass a b wnum w_store phi)
      (fun p q r hpqr =>
        evolve_step_halo nx ny nz dn dt mass a b wnum w_store phi hphi hstore p q r hpqr)

/-- C3 (amended): the driver never clears a halo, it only preserves a zero one:
if φ's halo is zero, every stored state's halo is zero and the symmetrise
supplier preserves zero halos, then after a driver iteration φ's halo is still
zero.  A nonzero input halo survives the iteration (merely rescaled), so the
claimed clearing of nonzero halos fails. -/
theorem C3_halo_preserved (cfg : Cfg) (sup : Suppliers) (a b v : Arr)
    (wnum : ℕ) (w_store : List Arr) (st : DriverState)
    (hphi : ∀ x y z, Halo cfg.nx cfg.ny cfg.nz x y z → st.phi x y z = 0)
    (hstore : ∀ lo ∈ w_store, ∀ x y z, Halo cfg.nx cfg.ny cfg.nz x y z → lo x y z = 0)
    (hsym : ∀ w : Arr, (∀ x y z, Halo cfg.nx cfg.ny cfg.nz x y z → w x y z = 0) →
      ∀ x y z, Halo cfg.nx cfg.ny cfg.nz x y z → sup.sym w x y z = 0)
    (x y z : ℕ) (hh : Halo cfg.nx cfg.ny cfg.nz x y z) :
    (driver_iteration cfg sup a b v wnum w_store st).1.phi x y z = 0 := by
  have hphi1 : ∀ p q r, Halo cfg.nx cfg.ny cfg.nz p q r →
      (if 0 < wnum then
          orthogonalise_wavefunction (cfg.nx + 6) (cfg.ny + 6) (cfg.nz + 6) wnum
            (normalise_wavefunction st.phi
              (compute_observables cfg sup v st.phi).norm2) w_store
        else st.phi) p q r = 0 := by
    intro p q r hpqr
    by_cases hwn : 0 < wnum
    · rw [if_pos hwn]
      refine orthogonalise_halo _ _ _ cfg.nx cfg.ny cfg.nz wnum _ w_store ?_ hstore p q r hpqr
      intro p2 q2 r2 hpqr2
      exact normalise_halo _ _ p2 q2 r2 (hphi p2 q2 r2 hpqr2)
    · rw [if_neg hwn]
      exact hphi p q r hpqr
  have htail : ∀ st2 : DriverState,
      (∀ p q r, Halo cfg.nx cfg.ny cfg.nz p q r → st2.phi p q r = 0) →
      ∀ p q r, Halo cfg.nx cfg.ny cfg.nz p q r →
        (driver_tail cfg a b wnum w_store st2).phi p q r = 0 := by
    intro st2 h2 p q r hpqr
    show (if st2.step < cfg.max_steps then
        evolve cfg.nx cfg.ny cfg.nz cfg.dn cfg.dt cfg.mass a b wnum w_store
          cfg.screen_update st2.phi
      else st2.phi) p q r = 0
    by_cases hstep : st2.step < cfg.max_steps
    · rw [if_pos hstep]
      exact evolve_halo cfg.nx cfg.ny cfg.nz cfg.dn cfg.dt cfg.mass a b wnum
        w_store cfg.screen_update st2.phi h2 hstore p q r hpqr
    · rw [if_neg hstep]
      exact h2 p q r hpqr
  unfold driver_iteration
  dsimp only
  by_cases hsnap : st.step % cfg.snap_update = 0
  · rw [if_pos hsnap]
    have hphi2 : ∀ p q r, Halo cfg.nx cfg.ny cfg.nz p q r →
        normalise_wavefunction
          (sup.sym (if 0 < wnum then
              orthogonalise_wavefunction (cfg.nx + 6) (cfg.ny + 6) (cfg.nz + 6) wnum
                (normalise_wavefunction st.phi
                  (compute_observables cfg sup v st.phi).norm2) w_store
            else st.phi))
          (compute_observables cfg sup v st.phi).norm2 p q r = 0 := by
      intro p q r hpqr
      exact normalise_halo _ _ p q r (hsym _ hphi1 p q r hpqr)
    by_cases hconv : |(compute_observables cfg sup v st.phi).energy /
        (compute_observables cfg sup v st.phi).norm2 - st.last_energy| < cfg.tolerance
    · rw [if_pos hconv]
      exact hphi2 x y z hh
    · rw [if_neg hconv]
      exact htail _ hphi2 x y z hh
  · rw [if_neg hsnap]
    exact htail _ hphi1 x y z hh

/-- A concrete 1×1×1-interior configuration for driver tests: unit grid
parameters, tolerance 1, snap and screen intervals 1, step limit 10. -/
def cfg3 : Cfg :=
  { nx := 1, ny := 1, nz := 1, dn := 1, dt := 1, mass := 1, tolerance := 1,
    max_steps := 10, snap_update := 1, screen_update := 1, wavenum := 0,
    wavemax := 0 }

/-- Concrete suppliers: identity symmetrise (no symmetry configured), all-ones
initial conditions, zero potential_sub and r2. -/
def sup3 : Suppliers :=
  { sym := id, init := oneArr, vsub := fun _ _ _ => 0, r2f := fun _ _ _ => 0 }

/-- Initial driver state over the all-ones wavefunction (nonzero halo). -/
noncomputable def st0 : DriverState :=
  { phi := oneArr, step := 0, last_energy := f64max, display_energy := f64max }

/-- Initial driver state over the all-zero wavefunction (zero halo). -/
noncomputable def st00 : DriverState :=
  { phi := zeroArr, step := 0, last_energy := f64max, display_energy := f64max }

/-- C3 (counterexample): the driver does not clear a nonzero halo.  With the
all-ones wavefunction (halo cells = 1) on a 1×1×1-interior grid, identity
symmetrise, generated-potential arrays V = 0, A = B = 1 and state index 0, the
halo cell (0,0,0) still reads 1 ≠ 0 after one full driver iteration. -/
theorem C3_counterexample :
    (driver_iteration cfg3 sup3 oneArr oneArr zeroArr 0 [] st0).1.phi 0 0 0 = 1 ∧
      (1 : ℝ) ≠ 0 := by
  refine ⟨?_, one_ne_zero⟩
  have hnorm2 : (compute_observables cfg3 sup3 zeroArr st0.phi).norm2 = 1 := by
    show get_norm_squared cfg3.nx cfg3.ny cfg3.nz (get_work_area st0.phi) = 1
    unfold get_norm_squared sum3 get_work_area
    simp [st0, oneArr, cfg3]
  have hphi2 : normalise_wavefunction (sup3.sym st0.phi) 1 0 0 0 = 1 := by
    show st0.phi 0 0 0 / Real.sqrt 1 = 1
    rw [Real.sqrt_one, div_one]
    rfl
  have hevolve : ∀ w : Arr,
      evolve 1 1 1 1 1 1 oneArr oneArr 0 [] 1 w 0 0 0 = w 0 0 0 := by
    intro w
    show (evolve_step 1 1 1 1 1 1 oneArr oneArr 0 [])^[max 1 1] w 0 0 0 = w 0 0 0
    rw [show max 1 1 = 1 from rfl, Function.iterate_one]
    exact evolve_step_wnum_zero_frame 1 1 1 1 1 1 oneArr oneArr [] w 0 0 0 (by omega)
  unfold driver_iteration
  dsimp only
  rw [if_neg (lt_irrefl 0), hnorm2]
  rw [if_pos (show st0.step % cfg3.snap_update = 0 from rfl)]
  by_cases hconv :
      |(compute_observables cfg3 sup3 zeroArr st0.phi).energy / 1 - st0.last_energy| <
        cfg3.tolerance
  · rw [if_pos hconv]
    exact hphi2
  · rw [if_neg hconv]
    show (driver_tail cfg3 oneArr oneArr 0 []
        { phi := normalise_wavefunction (sup3.sym st0.phi) 1,
          step := st0.step,
          last_energy := (compute_observables cfg3 sup3 zeroArr st0.phi).energy / 1,
          display_energy := st0.last_energy }).phi 0 0 0 = 1
    unfold driver_tail
    dsimp only
    rw [if_pos (show st0.step < cfg3.max_steps by decide)]
    exact Eq.trans (hevolve (normalise_wavefunction (sup3.sym st0.phi) 1)) hphi2

/-- C3 witness (for the amended theorem): with a zero-halo wavefunction, empty
store and identity symmetrise, the halo cell (0,0,0) is still zero after a
driver iteration. -/
theorem C3_halo_preserved_witness :
    (∀ x y z, Halo cfg3.nx cfg3.ny cfg3.nz x y z → st00.phi x y z = 0) ∧
      (driver_iteration cfg3 sup3 oneArr oneArr zeroArr 0 [] st00).1.phi 0 0 0 = 0 := by
  have hphi : ∀ x y z, Halo cfg3.nx cfg3.ny cfg3.nz x y z → st00.phi x y z = 0 :=
    fun x y z _ => rfl
  refine ⟨hphi, ?_⟩
  refine C3_halo_preserved cfg3 sup3 oneArr oneArr zeroArr 0 [] st00 hphi ?_ ?_ 0 0 0 ?_
  · intro lo hlo
    exact absurd hlo (List.not_mem_nil lo)
  · intro w hw x y z hh
    exact hw x y z hh
  · decide

/-- A concrete 2×1×1-interior configuration (padded 8×7×7) for the snap-point
renormalisation test: unit grid parameters, snap interval 1, and max_steps = 0
so the iteration ends right after the snap-point renormalisation. -/
def cfg5 : Cfg :=
  { nx := 2, ny := 1, nz := 1, dn := 1, dt := 1, mass := 1, tolerance := 1,
    max_steps := 0, snap_update := 1, screen_update := 1, wavenum := 1,
    wavemax := 1 }

/-- A wavefunction whose only nonzero entry is 2 at interior storage cell
(3,3,3); its interior squared norm is 4. -/
noncomputable def phi5 : Arr :=
  fun x y z => if x = 3 ∧ y = 3 ∧ z = 3 then 2 else 0

/-- A stored state: 1 at interior storage cell (4,3,3), zero elsewhere — a unit
vector orthogonal to phi5. -/
noncomputable def W0arr : Arr :=
  fun x y z => if x = 4 ∧ y = 3 ∧ z = 3 then 1 else 0

/-- Initial driver state over phi5. -/
noncomputable def st5 : DriverState :=
  { phi := phi5, step := 0, last_energy := f64max, display_energy := f64max }

theorem sqrt_four : Real.sqrt 4 = 2 := by
  rw [show (4 : ℝ) = 2 ^ 2 by norm_num, Real.sqrt_sq (by norm_num : (0 : ℝ) ≤ 2)]

/-- C5: at a snap point with state index k = 1 the driver renormalises with the
stale observable norm2 (computed before the earlier normalise-orthogonalise of
the same iteration), so the resulting interior L2 norm is not 1: for the
concrete state phi5 (norm² = 4) and store [W0arr], the interior squared norm
after the iteration (max_steps = 0, so the iteration ends at the snap
renormalisation) is 1/4, not 1. -/
theorem C5_stale_snap_renormalisation :
    get_norm_squared 2 1 1 (get_work_area
        ((driver_iteration cfg5 sup3 oneArr oneArr zeroArr 1 [W0arr] st5).1.phi)) =
        1 / 4 ∧
      (1 / 4 : ℝ) ≠ 1 := by
  refine ⟨?_, by norm_num⟩
  have hnorm2 : (compute_observables cfg5 sup3 zeroArr st5.phi).norm2 = 4 := by
    show get_norm_squared cfg5.nx cfg5.ny cfg5.nz (get_work_area st5.phi) = 4
    unfold get_norm_squared sum3 get_work_area
    norm_num [cfg5, st5, phi5, Finset.sum_range_succ, Finset.sum_range_zero,
      Finset.sum_range_one]
  have hov : scalar_sum_mul 8 7 7 W0arr (normalise_wavefunction st5.phi 4) = 0 := by
    unfold scalar_sum_mul sum3
    refine Finset.sum_eq_zero fun x _ => ?_
    refine Finset.sum_eq_zero fun y _ => ?_
    refine Finset.sum_eq_zero fun z _ => ?_
    show W0arr x y z * normalise_wavefunction phi5 4 x y z = 0
    unfold normalise_wavefunction W0arr phi5
    by_cases h : x = 4 ∧ y = 3 ∧ z = 3
    · obtain ⟨h1, h2, h3⟩ := h
      subst h1; subst h2; subst h3
      norm_num
    · rw [if_neg h, zero_mul]
  have hphi1 :
      orthogonalise_wavefunction 8 7 7 1 (normalise_wavefunction st5.phi 4)
          [W0arr] =
        normalise_wavefunction st5.phi 4 := by
    funext x y z
    show normalise_wavefunction st5.phi 4 x y z -
        W0arr x y z * scalar_sum_mul 8 7 7 W0arr (normalise_wavefunction st5.phi 4) =
        normalise_wavefunction st5.phi 4 x y z
    rw [hov]
    ring
  have hfun : (driver_iteration cfg5 sup3 oneArr oneArr zeroArr 1 [W0arr] st5).1.phi =
      normalise_wavefunction
        (sup3.sym (orthogonalise_wavefunction 8 7 7 1
          (normalise_wavefunction st5.phi 4) [W0arr])) 4 := by
    unfold driver_iteration
    dsimp only
    rw [hnorm2]
    rw [if_pos (show (0 : ℕ) < 1 from Nat.one_pos)]
    rw [if_pos (show st5.step % cfg5.snap_update = 0 from rfl)]
    by_cases hconv :
        |(compute_observables cfg5 sup3 zeroArr st5.phi).energy / 4 - st5.last_energy| <
          cfg5.tolerance
    · rw [if_pos hconv]
      rfl
    · rw [if_neg hconv]
      unfold driver_tail
      dsimp only
      rw [if_neg (show ¬st5.step < cfg5.max_steps by decide)]
      rfl
  rw [hfun]
  rw [show sup3.sym = id from rfl]
  simp only [id_eq]
  rw [hphi1]
  unfold get_norm_squared sum3 get_work_area normalise_wavefunction
  simp only [Finset.sum_range_succ, Finset.sum_range_zero, Finset.sum_range_one]
  rw [sqrt_four]
  norm_num [st5, phi5]

end Wafer
